import Mathlib

/-!
Verification development for the event.store repository.

The Python sources under src/ are shallowly embedded as Lean definitions:
the events table of the Postgres event storage adapter becomes a list of
rows, the save and scan operations become pure functions on that list, and
fallible operations return Except values.  Parts of the repository that the
claims depend on but that are not present under src/ (the write-condition
classes, the subscription state store and the in-memory lock manager) are
modelled from the specification, and each such definition says so in its
doc comment.
-/

namespace EventStore

/-- Identifier of a stream: the identifier.Stream value (category, stream). -/
structure StreamId where
  category : String
  stream : String
deriving DecidableEq, Repr

/-- Scannable targets: identifier.Log, identifier.Category, identifier.Stream. -/
inductive Scannable where
  | log : Scannable
  | category (category : String) : Scannable
  | stream (category : String) (stream : String) : Scannable
deriving DecidableEq, Repr

/-- ScanQueryParameters.category: the category of a Category or Stream target. -/
def Scannable.categoryOf : Scannable → Option String
  | .log => none
  | .category c => some c
  | .stream c _ => some c

/-- ScanQueryParameters.stream: the stream name of a Stream target. -/
def Scannable.streamOf : Scannable → Option String
  | .stream _ s => some s
  | _ => none

/-- NewEvent from store/types/event.py: name, payload, observed_at, occurred_at.
The payload is an opaque JSON-compatible value, embedded as a string; the
timestamps are embedded as integers. -/
structure NewEvent where
  name : String
  payload : String
  observed_at : Int
  occurred_at : Int
deriving DecidableEq, Repr

/-- A row of the events table, as defined by the relational schema and as
used by the Postgres storage adapter (insert_query writes the columns id,
name, stream, category, position, payload, observed_at, occurred_at; the
database assigns sequence_number from a serial; save and scan read the
position and sequence_number attributes of the returned rows). -/
structure EventRow where
  id : String
  name : String
  stream : String
  category : String
  position : Nat
  payload : String
  observed_at : Int
  occurred_at : Int
  sequence_number : Nat
deriving DecidableEq, Repr

/-- The rows of the events table belonging to one stream, in table order:
the reads of the Postgres adapter filter on category = %s AND stream = %s. -/
def streamEvents (t : List EventRow) (tgt : StreamId) : List EventRow :=
  t.filter (fun e => e.category == tgt.category && e.stream == tgt.stream)

/-- One step of picking the row with the greatest position, used to model
ORDER BY position DESC LIMIT 1 over an unordered row set. -/
def laterByPosition (acc : Option EventRow) (e : EventRow) : Option EventRow :=
  match acc with
  | none => some e
  | some m => if m.position < e.position then some e else some m

/-- read_last_query from the Postgres adapter: the stored event of the
target stream with the greatest position, or none when the stream is empty. -/
def read_last (t : List EventRow) (tgt : StreamId) : Option EventRow :=
  (streamEvents t tgt).foldl laterByPosition none

/-- Modelled from the spec: the write conditions of store/conditions.py are
not under src/; the spec defines stream_is_empty and position_is(n). -/
inductive WriteCondition where
  | stream_is_empty : WriteCondition
  | position_is (n : Nat) : WriteCondition
deriving DecidableEq, Repr

/-- Modelled from the spec: stream_is_empty passes iff no tip exists and
position_is(n) passes iff a tip exists whose position equals n; the tip is
the last_event argument that save passes to assert_met_by. -/
def WriteCondition.metBy : WriteCondition → Option EventRow → Bool
  | .stream_is_empty, none => true
  | .stream_is_empty, some _ => false
  | .position_is _, none => false
  | .position_is n, some e => e.position == n

/-- The error kinds raised by the embedded operations. -/
inductive StoreError where
  | unmetWriteCondition : StoreError
  | conflictingChange : StoreError
  | valueError : StoreError
  | notImplemented : StoreError
deriving DecidableEq, Repr

/-- A fresh opaque id for an inserted row.  insert_query generates the id
with uuid4; the embedding generates a deterministic stand-in keyed by the
sequence number, which is equally opaque to every claim. -/
def freshId (seq : Nat) : String :=
  "event-id-" ++ toString seq

/-- insert_query plus the BIGSERIAL sequence_number column: a single INSERT
... RETURNING *.  The table assigns the next sequence number, which in a
table that only ever gains rows is the row count. -/
def insertEvent (t : List EventRow) (tgt : StreamId) (e : NewEvent) (pos : Nat) :
    List EventRow × EventRow :=
  let row : EventRow :=
    { id := freshId t.length
      name := e.name
      stream := tgt.stream
      category := tgt.category
      position := pos
      payload := e.payload
      observed_at := e.observed_at
      occurred_at := e.occurred_at
      sequence_number := t.length }
  (t ++ [row], row)

/-- The insert loop of PostgresStorageAdapter.save: one insert per event,
with positions enumerated from the starting position. -/
def insertAll (t : List EventRow) (tgt : StreamId) (events : List NewEvent) (pos : Nat) :
    List EventRow × List EventRow :=
  match events with
  | [] => (t, [])
  | e :: rest =>
    let step := insertEvent t tgt e pos
    let next := insertAll step.1 tgt rest (pos + 1)
    (next.1, step.2 :: next.2)

/-- The position save assigns to the first inserted event, computed from the
tip read inside the transaction: tip.position + 1, or 0 when the stream
has no tip. -/
def startPosition (t : List EventRow) (tgt : StreamId) : Nat :=
  match read_last t tgt with
  | some e => e.position + 1
  | none => 0

/-- PostgresStorageAdapter.save: lock the table, read the current tip,
assert every condition against it, then insert the events at consecutive
positions starting at tip.position + 1 (or 0 when the stream is empty).
The exclusive table lock serialises committers, so the embedding is the
sequential function applied at the linearization point.  Returns the new
table together with the returned stored events. -/
def save (t : List EventRow) (tgt : StreamId) (events : List NewEvent)
    (conds : List WriteCondition) : Except StoreError (List EventRow × List EventRow) :=
  match conds.find? (fun c => ! c.metBy (read_last t tgt)) with
  | some _ => .error .unmetWriteCondition
  | none => .ok (insertAll t tgt events (startPosition t tgt))

/-- The state of the events table after a save call: on failure the
transaction rolls back and the table is unchanged. -/
def saveTable (t : List EventRow) (tgt : StreamId) (events : List NewEvent)
    (conds : List WriteCondition) : List EventRow :=
  match save t tgt events conds with
  | .error _ => t
  | .ok r => r.1

/-- The StoredEvent dataclass exactly as defined under
src/src/logicblocks/event/store/types/event.py: its only fields are name,
stream, category, position, payload, observed_at and occurred_at. -/
structure StoredEvent where
  name : String
  stream : String
  category : String
  position : Nat
  payload : String
  observed_at : Int
  occurred_at : Int
deriving DecidableEq, Repr

/-- StoredEvent.json from the same file: a JSON object serialised with
sorted keys; the embedding returns the key/value pairs in that sorted
order. -/
def StoredEvent.jsonFields (e : StoredEvent) : List (String × String) :=
  [("category", e.category),
   ("name", e.name),
   ("observedAt", toString e.observed_at),
   ("occurredAt", toString e.occurred_at),
   ("payload", e.payload),
   ("position", toString e.position),
   ("stream", e.stream)]

/-- QueryConstraint values accepted by scan: the only constraint with a SQL
converter in the adapter is SequenceNumberAfterConstraint, converted to
sequence_number > %s. -/
inductive QueryConstraint where
  | sequenceNumberAfter (sequence_number : Nat) : QueryConstraint
deriving DecidableEq, Repr

/-- Whether a row satisfies a constraint, per the SQL fragment
sequence_number > %s. -/
def QueryConstraint.holdsFor : QueryConstraint → EventRow → Bool
  | .sequenceNumberAfter n, e => decide (n < e.sequence_number)

/-- The WHERE clauses contributed by the target in scan_query: category = %s
when the target has a category and stream = %s when it has a stream. -/
def matchesTarget (target : Scannable) (e : EventRow) : Bool :=
  (match target.categoryOf with
   | some c => e.category == c
   | none => true) &&
  (match target.streamOf with
   | some s => e.stream == s
   | none => true)

/-- Comparison by sequence number, the ORDER BY key of scan_query. -/
def seqLE (a b : EventRow) : Prop :=
  a.sequence_number ≤ b.sequence_number

instance : DecidableRel seqLE := fun a b => Nat.decLe a.sequence_number b.sequence_number

/-- The combined WHERE clause of scan_query: target clauses plus every
constraint in the set. -/
def matchesQuery (target : Scannable) (constraints : List QueryConstraint) (e : EventRow) : Bool :=
  matchesTarget target e && constraints.all (fun c => c.holdsFor e)

/-- One page of scan_query: SELECT * ... WHERE ... ORDER BY sequence_number
ASC LIMIT page_size, over the unordered row set of the table. -/
def scanPage (t : List EventRow) (target : Scannable) (constraints : List QueryConstraint)
    (pageSize : Nat) : List EventRow :=
  ((t.filter (matchesQuery target constraints)).insertionSort seqLE).take pageSize

/-- The constraint set used by one loop iteration of scan: when an event has
been yielded, the set gains a sequence_number_after constraint for it (the
Python loop rebinds the constraints variable, so the set accumulates). -/
def withLastConstraint (constraints : List QueryConstraint) (last : Option Nat) :
    List QueryConstraint :=
  match last with
  | some n => constraints ++ [QueryConstraint.sequenceNumberAfter n]
  | none => constraints

/-- The last-yielded sequence number after a page: the loop updates it for
every yielded event, so after a page it is the page's last row's sequence
number (unchanged when the page is empty). -/
def nextLast (page : List EventRow) (last : Option Nat) : Option Nat :=
  match page.getLast? with
  | some e => some e.sequence_number
  | none => last

/-- The paging loop of PostgresStorageAdapter.scan.  Each iteration derives
the iteration's constraint set, fetches a page, yields it, and keeps
querying while a page is full.  The fuel argument bounds the number of
iterations; scan supplies enough fuel for the loop to run to completion,
matching the unbounded Python loop. -/
def scanGo (t : List EventRow) (target : Scannable) (constraints : List QueryConstraint)
    (pageSize : Nat) (last : Option Nat) : Nat → List EventRow
  | 0 => []
  | fuel + 1 =>
    if (scanPage t target (withLastConstraint constraints last) pageSize).length = pageSize then
      scanPage t target (withLastConstraint constraints last) pageSize
        ++ scanGo t target (withLastConstraint constraints last) pageSize
            (nextLast (scanPage t target (withLastConstraint constraints last) pageSize) last)
            fuel
    else
      scanPage t target (withLastConstraint constraints last) pageSize

/-- PostgresStorageAdapter.scan: the lazy sequence of every event yielded by
the paging loop.  One iteration always yields at least one row or stops,
so the table size bounds the iteration count. -/
def scan (t : List EventRow) (target : Scannable) (constraints : List QueryConstraint)
    (pageSize : Nat) : List EventRow :=
  scanGo t target constraints pageSize none (t.length + 1)

/-- Tables reachable from an empty events table by successful save calls. -/
inductive Reachable : List EventRow → Prop
  | empty : Reachable []
  | save (t : List EventRow) (tgt : StreamId) (events : List NewEvent)
      (conds : List WriteCondition) (t' ret : List EventRow) :
      Reachable t → save t tgt events conds = .ok (t', ret) → Reachable t'

/-- Sequence numbers equal row indices: the invariant the BIGSERIAL column
maintains on a table that only ever gains rows. -/
def TableOK (t : List EventRow) : Prop :=
  ∀ (i : Nat) (h : i < t.length), (t.get ⟨i, h⟩).sequence_number = i

/-- Rows appear in strictly increasing sequence-number order. -/
def SeqStrict (t : List EventRow) : Prop :=
  List.Pairwise (fun a b => a.sequence_number < b.sequence_number) t

theorem insertAll_spec (tgt : StreamId) :
    ∀ (events : List NewEvent) (t : List EventRow) (pos : Nat),
      (insertAll t tgt events pos).1 = t ++ (insertAll t tgt events pos).2
      ∧ ((insertAll t tgt events pos).2).map (·.position) = List.range' pos events.length
      ∧ ((insertAll t tgt events pos).2).map (·.sequence_number) = List.range' t.length events.length
      ∧ ∀ r ∈ (insertAll t tgt events pos).2, r.category = tgt.category ∧ r.stream = tgt.stream := by
  intro events
  induction events with
  | nil =>
    intro t pos
    simp [insertAll]
  | cons e rest ih =>
    intro t pos
    obtain ⟨ih1, ih2, ih3, ih4⟩ := ih (t ++ [(insertEvent t tgt e pos).2]) (pos + 1)
    refine ⟨?_, ?_, ?_, ?_⟩
    · simp only [insertAll, insertEvent]
      simp only [insertAll, insertEvent] at ih1
      rw [ih1]
      simp
    · simp only [insertAll, insertEvent, List.map_cons]
      simp only [insertAll, insertEvent] at ih2
      rw [ih2]
      simp [List.range'_succ]
    · simp only [insertAll, insertEvent, List.map_cons]
      simp only [insertAll, insertEvent] at ih3
      rw [ih3]
      simp [List.range'_succ]
    · intro r hr
      simp only [insertAll, insertEvent, List.mem_cons] at hr
      rcases hr with h | h
      · subst h
        exact ⟨rfl, rfl⟩
      · simp only [insertAll, insertEvent] at ih4
        exact ih4 r h

theorem save_ok (t : List EventRow) (tgt : StreamId) (events : List NewEvent)
    (conds : List WriteCondition) (t' ret : List EventRow)
    (h : save t tgt events conds = .ok (t', ret)) :
    t' = t ++ ret
    ∧ ret.map (·.position) = List.range' (startPosition t tgt) events.length
    ∧ ret.map (·.sequence_number) = List.range' t.length events.length
    ∧ (∀ r ∈ ret, r.category = tgt.category ∧ r.stream = tgt.stream)
    ∧ (∀ c ∈ conds, c.metBy (read_last t tgt) = true) := by
  unfold save at h
  cases hfind : conds.find? (fun c => ! c.metBy (read_last t tgt)) with
  | some c =>
    rw [hfind] at h
    cases h
  | none =>
    rw [hfind] at h
    simp only [Except.ok.injEq] at h
    obtain ⟨spec1, spec2, spec3, spec4⟩ :=
      insertAll_spec tgt events t (startPosition t tgt)
    have ht' : t' = (insertAll t tgt events (startPosition t tgt)).1 := by
      rw [h]
    have hret : ret = (insertAll t tgt events (startPosition t tgt)).2 := by
      rw [h]
    refine ⟨?_, ?_, ?_, ?_, ?_⟩
    · rw [ht', hret]; exact spec1
    · rw [hret]; exact spec2
    · rw [hret]; exact spec3
    · rw [hret]; exact spec4
    · intro c hc
      have := List.find?_eq_none.mp hfind c hc
      simpa using this

/-- C1: each write condition is evaluated against the stream's current tip
(read_last): stream_is_empty passes iff no tip exists, position_is(n)
passes iff a tip exists with position n, and when any condition fails save
raises UnmetWriteCondition and the events table is unchanged. -/
theorem save_checks_conditions_against_tip (t : List EventRow) (tgt : StreamId)
    (events : List NewEvent) (conds : List WriteCondition) :
    (WriteCondition.stream_is_empty.metBy (read_last t tgt) = true ↔ read_last t tgt = none)
    ∧ (∀ n, (WriteCondition.position_is n).metBy (read_last t tgt) = true ↔
        ∃ e, read_last t tgt = some e ∧ e.position = n)
    ∧ ((∃ c ∈ conds, c.metBy (read_last t tgt) = false) →
        save t tgt events conds = .error .unmetWriteCondition
        ∧ saveTable t tgt events conds = t) := by
  refine ⟨?_, ?_, ?_⟩
  · cases h : read_last t tgt <;> simp [WriteCondition.metBy]
  · intro n
    cases h : read_last t tgt <;> simp [WriteCondition.metBy]
  · intro hfail
    obtain ⟨c, hc, hcf⟩ := hfail
    cases hfind : conds.find? (fun c => ! c.metBy (read_last t tgt)) with
    | none =>
      have := List.find?_eq_none.mp hfind c hc
      simp [hcf] at this
    | some c' =>
      constructor
      · unfold save
        rw [hfind]
      · unfold saveTable save
        rw [hfind]

theorem save_checks_conditions_against_tip_witness :
    (∃ c ∈ [WriteCondition.stream_is_empty],
        c.metBy
          (read_last
            [{ id := "event-id-0", name := "n", stream := "s", category := "c", position := 0,
               payload := "p", observed_at := 0, occurred_at := 0, sequence_number := 0 }]
            ⟨"c", "s"⟩) = false)
    ∧ (save
          [{ id := "event-id-0", name := "n", stream := "s", category := "c", position := 0,
             payload := "p", observed_at := 0, occurred_at := 0, sequence_number := 0 }]
          ⟨"c", "s"⟩ [⟨"m", "q", 1, 1⟩] [WriteCondition.stream_is_empty]
          = .error .unmetWriteCondition
        ∧ saveTable
            [{ id := "event-id-0", name := "n", stream := "s", category := "c", position := 0,
               payload := "p", observed_at := 0, occurred_at := 0, sequence_number := 0 }]
            ⟨"c", "s"⟩ [⟨"m", "q", 1, 1⟩] [WriteCondition.stream_is_empty]
            = [{ id := "event-id-0", name := "n", stream := "s", category := "c", position := 0,
                 payload := "p", observed_at := 0, occurred_at := 0, sequence_number := 0 }]) :=
  ⟨⟨WriteCondition.stream_is_empty, by decide, by decide⟩,
   (save_checks_conditions_against_tip _ _ _ _).2.2
     ⟨WriteCondition.stream_is_empty, by decide, by decide⟩⟩

/-- C5: the StoredEvent dataclass defined under src serialises exactly the
keys category, name, observedAt, occurredAt, payload, position and stream;
it carries neither an id field nor a sequence number field, contrary to
the claim (the repository's own adapter and tests require both). -/
theorem storedEvent_lacks_id_and_sequence_number (e : StoredEvent) :
    (e.jsonFields.map Prod.fst
      = ["category", "name", "observedAt", "occurredAt", "payload", "position", "stream"])
    ∧ (e.jsonFields.map Prod.fst).contains "id" = false
    ∧ (e.jsonFields.map Prod.fst).contains "sequenceNumber" = false
    ∧ (e.jsonFields.map Prod.fst).contains "sequence_number" = false :=
  ⟨rfl, rfl, rfl, rfl⟩

theorem foldl_later_of_increasing :
    ∀ (l : List EventRow) (m : EventRow),
      (∀ x ∈ l, m.position < x.position) →
      List.Pairwise (fun a b => a.position < b.position) l →
      l.foldl laterByPosition (some m) = some (l.getLastD m) := by
  intro l
  induction l with
  | nil =>
    intro m _ _
    simp [List.getLastD]
  | cons x xs ih =>
    intro m hm hp
    have hstep : laterByPosition (some m) x = some x := by
      simp [laterByPosition, hm x (List.mem_cons_self x xs)]
    have hx : ∀ y ∈ xs, x.position < y.position := fun y hy => List.rel_of_pairwise_cons hp hy
    calc (x :: xs).foldl laterByPosition (some m)
        = xs.foldl laterByPosition (laterByPosition (some m) x) := rfl
      _ = xs.foldl laterByPosition (some x) := by rw [hstep]
      _ = some (xs.getLastD x) := ih x hx (List.pairwise_cons.mp hp).2
      _ = some ((x :: xs).getLastD m) := by rw [List.getLastD_cons]


theorem read_last_eq_getLast (t : List EventRow) (tgt : StreamId)
    (h : List.Pairwise (fun a b => a.position < b.position) (streamEvents t tgt)) :
    read_last t tgt = (streamEvents t tgt).getLast? := by
  unfold read_last
  cases hl : streamEvents t tgt with
  | nil => rfl
  | cons x xs =>
    rw [hl] at h
    calc (x :: xs).foldl laterByPosition none
        = xs.foldl laterByPosition (some x) := rfl
      _ = some (xs.getLastD x) :=
          foldl_later_of_increasing xs x (fun y hy => List.rel_of_pairwise_cons h hy)
            (List.pairwise_cons.mp h).2
      _ = (x :: xs).getLast? := by
          rw [List.getLast?_cons, List.getLastD_eq_getLast?]

theorem pairwise_pos_of_range (l : List EventRow)
    (hd : l.map (·.position) = List.range l.length) :
    List.Pairwise (fun a b => a.position < b.position) l := by
  have := List.pairwise_lt_range l.length
  rw [← hd] at this
  exact (List.pairwise_map).mp this

theorem startPosition_eq_length (t : List EventRow) (tgt : StreamId)
    (hd : (streamEvents t tgt).map (·.position) = List.range (streamEvents t tgt).length) :
    startPosition t tgt = (streamEvents t tgt).length := by
  have hpair := pairwise_pos_of_range (streamEvents t tgt) hd
  have hrl := read_last_eq_getLast t tgt hpair
  cases hl : streamEvents t tgt with
  | nil =>
    unfold startPosition
    rw [hrl, hl]
    rfl
  | cons x xs =>
    have hne : streamEvents t tgt ≠ [] := by rw [hl]; simp
    have hlen : 0 < (streamEvents t tgt).length := List.length_pos.mpr hne
    obtain ⟨e, he⟩ := List.getLast?_isSome.mpr hne |> Option.isSome_iff_exists.mp
    have hidx : (streamEvents t tgt).getLast? =
        (streamEvents t tgt)[(streamEvents t tgt).length - 1]? :=
      List.getLast?_eq_getElem? _
    have hmapidx :
        ((streamEvents t tgt).map (·.position))[(streamEvents t tgt).length - 1]?
          = some ((streamEvents t tgt).length - 1) := by
      rw [hd]
      simp [List.getElem?_range, Nat.sub_lt hlen Nat.one_pos]
    rw [List.getElem?_map, ← hidx, he] at hmapidx
    simp only [Option.map_some'] at hmapidx
    have hepos : e.position = (streamEvents t tgt).length - 1 := by
      exact Option.some.inj hmapidx
    unfold startPosition
    rw [hrl, he]
    show e.position + 1 = (x :: xs).length
    rw [hepos, hl]
    simp only [List.length_cons]
    omega

/-- Positions of every stream are exactly 0, 1, ..., n-1 in table order. -/
def DensePositions (t : List EventRow) : Prop :=
  ∀ tgt : StreamId,
    (streamEvents t tgt).map (·.position) = List.range (streamEvents t tgt).length

theorem streamEvents_append (t rows : List EventRow) (tgt : StreamId) :
    streamEvents (t ++ rows) tgt = streamEvents t tgt ++ streamEvents rows tgt := by
  unfold streamEvents
  exact List.filter_append _ _

theorem streamEvents_of_all_match (rows : List EventRow) (tgt : StreamId)
    (h : ∀ r ∈ rows, r.category = tgt.category ∧ r.stream = tgt.stream) :
    streamEvents rows tgt = rows := by
  unfold streamEvents
  apply List.filter_eq_self.mpr
  intro r hr
  obtain ⟨h1, h2⟩ := h r hr
  simp [h1, h2]

theorem streamEvents_of_none_match (rows : List EventRow) (tgt tgt' : StreamId)
    (hne : tgt' ≠ tgt)
    (h : ∀ r ∈ rows, r.category = tgt.category ∧ r.stream = tgt.stream) :
    streamEvents rows tgt' = [] := by
  unfold streamEvents
  apply List.filter_eq_nil_iff.mpr
  intro r hr
  obtain ⟨h1, h2⟩ := h r hr
  intro hcontra
  simp only [Bool.and_eq_true, beq_iff_eq] at hcontra
  apply hne
  cases tgt'
  cases tgt
  simp_all

theorem dense_preserved (t : List EventRow) (tgt : StreamId) (events : List NewEvent)
    (conds : List WriteCondition) (t' ret : List EventRow)
    (h : save t tgt events conds = .ok (t', ret)) (hd : DensePositions t) :
    DensePositions t' := by
  obtain ⟨ht', hpos, _, hmatch, _⟩ := save_ok t tgt events conds t' ret h
  intro tgt'
  by_cases htgt : tgt' = tgt
  · subst htgt
    have hall : streamEvents ret tgt' = ret := streamEvents_of_all_match ret tgt' hmatch
    have hstart : startPosition t tgt' = (streamEvents t tgt').length :=
      startPosition_eq_length t tgt' (hd tgt')
    have hretlen : ret.length = events.length := by
      have := congrArg List.length hpos
      simpa using this
    rw [ht', streamEvents_append, hall, List.map_append, hd tgt', hpos, hstart,
        List.length_append, hretlen]
    rw [List.range_eq_range', List.range_eq_range']
    simpa [Nat.add_comm] using
      List.range'_append 0 (streamEvents t tgt').length events.length 1
  · have hnone : streamEvents ret tgt' = [] :=
      streamEvents_of_none_match ret tgt tgt' htgt hmatch
    rw [ht', streamEvents_append, hnone, List.append_nil]
    exact hd tgt'

theorem reachable_dense (t : List EventRow) (h : Reachable t) : DensePositions t := by
  induction h with
  | empty =>
    intro tgt
    rfl
  | save t tgt events conds t' ret _ hsave ih =>
    exact dense_preserved t tgt events conds t' ret hsave ih

/-- C3: positions are assigned at commit time as a dense 0-based sequence:
on every reachable events table every stream's positions are exactly
0, 1, ..., n-1 in commit order, and each successful save returns the
appended events with consecutive positions starting at the tip position
plus one (or 0 for an empty stream, which is what startPosition computes
from the tip read_last returns). -/
theorem save_assigns_dense_positions (t : List EventRow) (h : Reachable t) :
    (∀ tgt : StreamId,
      (streamEvents t tgt).map (·.position) = List.range (streamEvents t tgt).length)
    ∧ (∀ (tgt : StreamId) (events : List NewEvent) (conds : List WriteCondition)
        (t' ret : List EventRow), save t tgt events conds = .ok (t', ret) →
          ret.map (·.position) = List.range' (startPosition t tgt) events.length
          ∧ startPosition t tgt = (streamEvents t tgt).length) := by
  refine ⟨reachable_dense t h, ?_⟩
  intro tgt events conds t' ret hsave
  obtain ⟨_, hpos, _, _, _⟩ := save_ok t tgt events conds t' ret hsave
  exact ⟨hpos, startPosition_eq_length t tgt (reachable_dense t h tgt)⟩

theorem save_assigns_dense_positions_witness :
    Reachable
      (saveTable [] ⟨"orders", "o-1"⟩ [⟨"event-1", "p1", 0, 0⟩, ⟨"event-2", "p2", 0, 0⟩] [])
    ∧ (∀ tgt : StreamId,
        (streamEvents
            (saveTable [] ⟨"orders", "o-1"⟩
              [⟨"event-1", "p1", 0, 0⟩, ⟨"event-2", "p2", 0, 0⟩] []) tgt).map (·.position)
          = List.range
              (streamEvents
                (saveTable [] ⟨"orders", "o-1"⟩
                  [⟨"event-1", "p1", 0, 0⟩, ⟨"event-2", "p2", 0, 0⟩] []) tgt).length)
    ∧ (∀ (tgt : StreamId) (events : List NewEvent) (conds : List WriteCondition)
        (t' ret : List EventRow),
          save
              (saveTable [] ⟨"orders", "o-1"⟩
                [⟨"event-1", "p1", 0, 0⟩, ⟨"event-2", "p2", 0, 0⟩] [])
              tgt events conds = .ok (t', ret) →
            ret.map (·.position) = List.range' (startPosition
              (saveTable [] ⟨"orders", "o-1"⟩
                [⟨"event-1", "p1", 0, 0⟩, ⟨"event-2", "p2", 0, 0⟩] []) tgt) events.length
            ∧ startPosition
                (saveTable [] ⟨"orders", "o-1"⟩
                  [⟨"event-1", "p1", 0, 0⟩, ⟨"event-2", "p2", 0, 0⟩] []) tgt
              = (streamEvents
                  (saveTable [] ⟨"orders", "o-1"⟩
                    [⟨"event-1", "p1", 0, 0⟩, ⟨"event-2", "p2", 0, 0⟩] []) tgt).length) := by
  have hreach : Reachable
      (saveTable [] ⟨"orders", "o-1"⟩ [⟨"event-1", "p1", 0, 0⟩, ⟨"event-2", "p2", 0, 0⟩] []) := by
    apply Reachable.save [] ⟨"orders", "o-1"⟩
      [⟨"event-1", "p1", 0, 0⟩, ⟨"event-2", "p2", 0, 0⟩] []
      _ _ Reachable.empty
    rfl
  exact ⟨hreach, save_assigns_dense_positions _ hreach⟩

theorem reachable_tableOK (t : List EventRow) (h : Reachable t) : TableOK t := by
  induction h with
  | empty =>
    intro i hi
    simp at hi
  | save t tgt events conds t' ret hr hsave ih =>
    obtain ⟨ht', _, hseq, _, _⟩ := save_ok t tgt events conds t' ret hsave
    have hretlen : ret.length = events.length := by
      have := congrArg List.length hseq
      simpa using this
    subst ht'
    intro i hi
    simp only [List.get_eq_getElem]
    rw [List.length_append] at hi
    by_cases hit : i < t.length
    · rw [List.getElem_append_left hit]
      have := ih i hit
      simpa [List.get_eq_getElem] using this
    · have hge : t.length ≤ i := by omega
      have hj : i - t.length < ret.length := by omega
      have hval : (ret.map (fun r => r.sequence_number))[i - t.length]?
          = some (t.length + (i - t.length)) := by
        rw [hseq]
        rw [List.getElem?_eq_getElem (by simp [List.length_range']; omega)]
        congr 1
        exact List.getElem_range'_1 _ _
      rw [List.getElem?_map, List.getElem?_eq_getElem hj] at hval
      simp only [Option.map_some', Option.some.injEq] at hval
      rw [List.getElem_append_right hge]
      rw [hval]
      omega

theorem tableOK_seqStrict (t : List EventRow) (h : TableOK t) : SeqStrict t := by
  unfold SeqStrict
  rw [List.pairwise_iff_getElem]
  intro i j hi hj hij
  have h1 := h i hi
  have h2 := h j hj
  simp only [List.get_eq_getElem] at h1 h2
  rw [h1, h2]
  exact hij

theorem reachable_seqStrict (t : List EventRow) (h : Reachable t) : SeqStrict t :=
  tableOK_seqStrict t (reachable_tableOK t h)

/-- The rows still to be yielded once every event with sequence number up to
last has been yielded. -/
def afterLast (last : Option Nat) (l : List EventRow) : List EventRow :=
  match last with
  | none => l
  | some n => l.filter (fun e => decide (n < e.sequence_number))

theorem filter_constraints_snoc (t : List EventRow) (target : Scannable)
    (C : List QueryConstraint) (n : Nat) :
    t.filter (matchesQuery target (C ++ [QueryConstraint.sequenceNumberAfter n]))
      = (t.filter (matchesQuery target C)).filter
          (fun e => decide (n < e.sequence_number)) := by
  rw [List.filter_filter]
  apply List.filter_congr
  intro e he
  simp only [matchesQuery, QueryConstraint.holdsFor, List.all_append, List.all_cons,
    List.all_nil, Bool.and_true]
  cases matchesTarget target e <;>
    cases C.all (fun c => c.holdsFor e) <;>
      cases hd : decide (n < e.sequence_number) <;> simp [QueryConstraint.holdsFor, hd]

theorem seqStrict_filter (t : List EventRow) (p : EventRow → Bool) (h : SeqStrict t) :
    SeqStrict (t.filter p) :=
  List.Pairwise.sublist (List.filter_sublist t) h

theorem seqStrict_afterLast (l : List EventRow) (last : Option Nat) (h : SeqStrict l) :
    SeqStrict (afterLast last l) := by
  cases last with
  | none => exact h
  | some n => exact seqStrict_filter l _ h

theorem insertionSort_eq_self_of_seqStrict (l : List EventRow) (h : SeqStrict l) :
    l.insertionSort seqLE = l := by
  apply List.Sorted.insertionSort_eq
  exact h.imp (fun hab => Nat.le_of_lt hab)

theorem le_getLast_of_pairwise (l : List EventRow) (hp : SeqStrict l)
    (x : EventRow) (hx : l.getLast? = some x) :
    ∀ y ∈ l, y.sequence_number ≤ x.sequence_number := by
  intro y hy
  obtain ⟨i, hi, hiy⟩ := List.mem_iff_getElem.mp hy
  have hne : l ≠ [] := by
    intro hcontra
    rw [hcontra] at hx
    cases hx
  have hlen : 0 < l.length := List.length_pos.mpr hne
  have hxl : l[l.length - 1]? = some x := by
    rw [← List.getLast?_eq_getElem?]
    exact hx
  rw [List.getElem?_eq_getElem (by omega)] at hxl
  have hxval := Option.some.inj hxl
  by_cases hi' : i = l.length - 1
  · subst hi'
    rw [← hiy, hxval]
  · have hrel := (List.pairwise_iff_getElem.mp hp) i (l.length - 1) hi (by omega) (by omega)
    rw [hxval] at hrel
    rw [← hiy]
    exact Nat.le_of_lt hrel

theorem filter_gt_getLast_take (l : List EventRow) (hp : SeqStrict l)
    (x : EventRow) (ps : Nat) (hx : (l.take ps).getLast? = some x) :
    l.filter (fun e => decide (x.sequence_number < e.sequence_number)) = l.drop ps := by
  have hsplit := List.take_append_drop ps l
  have hp' : SeqStrict (l.take ps ++ l.drop ps) := by rw [hsplit]; exact hp
  obtain ⟨hp1, hp2, hcross⟩ := List.pairwise_append.mp hp'
  have hxmem : x ∈ l.take ps := by
    have hmem : x ∈ (l.take ps).getLast? := by
      rw [hx]
      exact Option.mem_some_iff.mpr rfl
    obtain ⟨hne, hxeq⟩ := List.mem_getLast?_eq_getLast hmem
    rw [hxeq]
    exact List.getLast_mem hne
  have h1 : (l.take ps).filter (fun e => decide (x.sequence_number < e.sequence_number))
      = [] := by
    apply List.filter_eq_nil_iff.mpr
    intro y hy
    have := le_getLast_of_pairwise (l.take ps) hp1 x hx y hy
    simp
    omega
  have h2 : (l.drop ps).filter (fun e => decide (x.sequence_number < e.sequence_number))
      = l.drop ps := by
    apply List.filter_eq_self.mpr
    intro y hy
    have := hcross x hxmem y hy
    simpa using this
  calc l.filter (fun e => decide (x.sequence_number < e.sequence_number))
      = (l.take ps ++ l.drop ps).filter
          (fun e => decide (x.sequence_number < e.sequence_number)) := by rw [hsplit]
    _ = (l.take ps).filter (fun e => decide (x.sequence_number < e.sequence_number))
          ++ (l.drop ps).filter (fun e => decide (x.sequence_number < e.sequence_number)) :=
        List.filter_append _ _
    _ = l.drop ps := by rw [h1, h2]; simp

theorem scanGo_spec (t : List EventRow) (target : Scannable) (ht : SeqStrict t) :
    ∀ (fuel : Nat) (C : List QueryConstraint) (ps : Nat) (last : Option Nat),
      0 < ps →
      (afterLast last (t.filter (matchesQuery target C))).length < fuel →
      scanGo t target C ps last fuel = afterLast last (t.filter (matchesQuery target C)) := by
  intro fuel
  induction fuel with
  | zero =>
    intro C ps last hps hlen
    omega
  | succ fuel ih =>
    intro C ps last hps hlen
    have hG : t.filter (matchesQuery target (withLastConstraint C last))
        = afterLast last (t.filter (matchesQuery target C)) := by
      cases last with
      | none => rfl
      | some n => exact filter_constraints_snoc t target C n
    have hGstrict : SeqStrict (afterLast last (t.filter (matchesQuery target C))) :=
      seqStrict_afterLast _ last (seqStrict_filter t _ ht)
    have hpage : scanPage t target (withLastConstraint C last) ps
        = (afterLast last (t.filter (matchesQuery target C))).take ps := by
      unfold scanPage
      rw [hG, insertionSort_eq_self_of_seqStrict _ hGstrict]
    by_cases hfull : ps ≤ (afterLast last (t.filter (matchesQuery target C))).length
    · have hplen : (scanPage t target (withLastConstraint C last) ps).length = ps := by
        rw [hpage, List.length_take]
        omega
      rw [scanGo, if_pos hplen, hpage]
      have hne : (afterLast last (t.filter (matchesQuery target C))).take ps ≠ [] := by
        apply List.ne_nil_of_length_pos
        rw [List.length_take]
        omega
      obtain ⟨x, hx⟩ := Option.isSome_iff_exists.mp (List.getLast?_isSome.mpr hne)
      have hnext : nextLast ((afterLast last (t.filter (matchesQuery target C))).take ps) last
          = some x.sequence_number := by
        unfold nextLast
        rw [hx]
      rw [hnext]
      have hdrop : afterLast (some x.sequence_number)
            (t.filter (matchesQuery target (withLastConstraint C last)))
          = (afterLast last (t.filter (matchesQuery target C))).drop ps := by
        unfold afterLast
        rw [hG]
        exact filter_gt_getLast_take _ hGstrict x ps hx
      have hrec := ih (withLastConstraint C last) ps (some x.sequence_number) hps (by
        rw [hdrop, List.length_drop]
        omega)
      rw [hrec, hdrop, List.take_append_drop]
    · have hlt : (afterLast last (t.filter (matchesQuery target C))).length < ps := by omega
      have hpage' : scanPage t target (withLastConstraint C last) ps
          = afterLast last (t.filter (matchesQuery target C)) := by
        rw [hpage]
        exact List.take_of_length_le (Nat.le_of_lt hlt)
      have hplen : (scanPage t target (withLastConstraint C last) ps).length ≠ ps := by
        rw [hpage']
        omega
      rw [scanGo, if_neg hplen, hpage']

theorem scan_spec_of_seqStrict (t : List EventRow) (ht : SeqStrict t)
    (target : Scannable) (C : List QueryConstraint) (ps : Nat) (hps : 0 < ps) :
    scan t target C ps = t.filter (matchesQuery target C) := by
  unfold scan
  have := scanGo_spec t target ht (t.length + 1) C ps none hps (by
    show (afterLast none (t.filter (matchesQuery target C))).length < t.length + 1
    unfold afterLast
    exact Nat.lt_succ_of_le (List.length_filter_le _ _))
  exact this

/-- C4: scan yields exactly the committed events matching the target and
constraints, in ascending sequence_number order, the paging loop advancing
through sequence_number_after constraints derived from the last yielded
event; in particular save followed by scan of the same (previously empty)
stream yields exactly the saved events in order. -/
theorem scan_yields_matching_events (t : List EventRow) (h : Reachable t)
    (target : Scannable) (C : List QueryConstraint) (ps : Nat) (hps : 0 < ps) :
    scan t target C ps = t.filter (matchesQuery target C)
    ∧ List.Pairwise (fun a b => a.sequence_number < b.sequence_number) (scan t target C ps)
    ∧ (∀ (tgt : StreamId) (events : List NewEvent) (conds : List WriteCondition)
        (t' ret : List EventRow),
          streamEvents t tgt = [] →
          save t tgt events conds = .ok (t', ret) →
          scan t' (Scannable.stream tgt.category tgt.stream) [] ps = ret) := by
  have ht := reachable_seqStrict t h
  have h1 : scan t target C ps = t.filter (matchesQuery target C) :=
    scan_spec_of_seqStrict t ht target C ps hps
  refine ⟨h1, ?_, ?_⟩
  · rw [h1]
    exact seqStrict_filter t _ ht
  · intro tgt events conds t' ret hempty hsave
    have ht' : SeqStrict t' :=
      reachable_seqStrict t' (Reachable.save t tgt events conds t' ret h hsave)
    have h2 : scan t' (Scannable.stream tgt.category tgt.stream) [] ps
        = t'.filter (matchesQuery (Scannable.stream tgt.category tgt.stream) []) :=
      scan_spec_of_seqStrict t' ht' _ [] ps hps
    have h3 : t'.filter (matchesQuery (Scannable.stream tgt.category tgt.stream) [])
        = streamEvents t' tgt := by
      unfold streamEvents
      apply List.filter_congr
      intro e he
      simp [matchesQuery, matchesTarget, Scannable.categoryOf, Scannable.streamOf]
    obtain ⟨hteq, _, _, hmatch, _⟩ := save_ok t tgt events conds t' ret hsave
    rw [h2, h3, hteq, streamEvents_append, hempty, List.nil_append,
        streamEvents_of_all_match ret tgt hmatch]

theorem scan_yields_matching_events_witness :
    (0 < 1)
    ∧ (scan [] Scannable.log [] 1 = List.filter (matchesQuery Scannable.log []) []
      ∧ List.Pairwise (fun a b => a.sequence_number < b.sequence_number)
          (scan [] Scannable.log [] 1)
      ∧ (∀ (tgt : StreamId) (events : List NewEvent) (conds : List WriteCondition)
          (t' ret : List EventRow),
            streamEvents [] tgt = [] →
            save [] tgt events conds = .ok (t', ret) →
            scan t' (Scannable.stream tgt.category tgt.stream) [] 1 = ret)) :=
  ⟨Nat.one_pos, scan_yields_matching_events [] Reachable.empty Scannable.log [] 1 Nat.one_pos⟩

/-- A subscription state: group, id, owning node and the assigned event
sources (source identifiers kept opaque as strings). -/
structure EventSubscriptionState where
  group : String
  id : String
  node_id : String
  event_sources : List String
deriving DecidableEq, Repr

/-- The key of a subscription: (group, id). -/
def EventSubscriptionState.key (s : EventSubscriptionState) : String × String :=
  (s.group, s.id)

/-- The three change kinds of a subscription state changeset. -/
inductive EventSubscriptionStateChangeType where
  | add : EventSubscriptionStateChangeType
  | replace : EventSubscriptionStateChangeType
  | remove : EventSubscriptionStateChangeType
deriving DecidableEq, Repr

/-- A tagged change carrying the subscription state it concerns. -/
structure EventSubscriptionStateChange where
  type : EventSubscriptionStateChangeType
  subscription : EventSubscriptionState
deriving DecidableEq, Repr

/-- The subscription state store contents: one row per key. -/
abbrev SubscriptionStore := List ((String × String) × EventSubscriptionState)

/-- Modelled from the spec: the Postgres subscription state store is not
under src/.  One change checked and applied against the working state of
the transaction: ADD is invalid where the key already exists, REMOVE and
REPLACE are invalid where it does not, and an invalid change rejects the
batch. -/
def applySubscriptionChange (m : SubscriptionStore) (c : EventSubscriptionStateChange) :
    Except StoreError SubscriptionStore :=
  match c.type with
  | .add =>
    if (m.lookup c.subscription.key).isSome then .error .conflictingChange
    else .ok (m ++ [(c.subscription.key, c.subscription)])
  | .replace =>
    if (m.lookup c.subscription.key).isSome then
      .ok (m.map (fun kv =>
        if kv.1 == c.subscription.key then (kv.1, c.subscription) else kv))
    else .error .conflictingChange
  | .remove =>
    if (m.lookup c.subscription.key).isSome then
      .ok (m.filter (fun kv => ! (kv.1 == c.subscription.key)))
    else .error .conflictingChange

/-- Modelled from the spec: apply(changes) runs the whole changeset in a
single transaction with row-level checks; the store only takes the new
contents when every change succeeded. -/
def applySubscriptionChanges (m : SubscriptionStore)
    (cs : List EventSubscriptionStateChange) : Except StoreError SubscriptionStore :=
  match cs with
  | [] => .ok m
  | c :: rest =>
    match applySubscriptionChange m c with
    | .error e => .error e
    | .ok next => applySubscriptionChanges next rest

/-- The store contents after an apply call: unchanged when apply raises. -/
def subscriptionStoreAfter (m : SubscriptionStore)
    (cs : List EventSubscriptionStateChange) : SubscriptionStore :=
  match applySubscriptionChanges m cs with
  | .error _ => m
  | .ok next => next

/-- list() of the subscription state store: every stored state. -/
def listSubscriptions (m : SubscriptionStore) : List EventSubscriptionState :=
  m.map (fun kv => kv.2)

/-- C2: apply is atomic.  Whenever a batch fails, list() afterwards is what
it was before; in particular a valid ADD batched with a REMOVE of an
absent (distinct) key against an empty store raises ConflictingChange and
leaves list() empty, even though the ADD alone succeeds. -/
theorem apply_changes_atomic (add rem : EventSubscriptionState)
    (hkey : add.key ≠ rem.key) :
    (∀ (m : SubscriptionStore) (cs : List EventSubscriptionStateChange),
        (applySubscriptionChanges m cs).isOk = false →
        listSubscriptions (subscriptionStoreAfter m cs) = listSubscriptions m)
    ∧ applySubscriptionChange [] ⟨.add, add⟩ = .ok [(add.key, add)]
    ∧ applySubscriptionChanges [] [⟨.add, add⟩, ⟨.remove, rem⟩]
        = .error .conflictingChange
    ∧ listSubscriptions
        (subscriptionStoreAfter [] [⟨.add, add⟩, ⟨.remove, rem⟩]) = [] := by
  have hlook : ([((add.key, add))].lookup rem.key) = none := by
    have hbeq : (rem.key == add.key) = false := by
      simp only [beq_eq_false_iff_ne, ne_eq]
      intro hcontra
      exact hkey hcontra.symm
    simp [List.lookup, hbeq]
  have hstep1 : applySubscriptionChange [] ⟨.add, add⟩ = .ok [(add.key, add)] := by
    unfold applySubscriptionChange
    simp [List.lookup]
  have hstep2 : applySubscriptionChange [(add.key, add)] ⟨.remove, rem⟩
      = .error .conflictingChange := by
    unfold applySubscriptionChange
    simp [hlook]
  have herr : applySubscriptionChanges [] [⟨.add, add⟩, ⟨.remove, rem⟩]
      = .error .conflictingChange := by
    simp only [applySubscriptionChanges, hstep1, hstep2]
  refine ⟨?_, hstep1, herr, ?_⟩
  · intro m cs hfail
    unfold subscriptionStoreAfter
    cases happ : applySubscriptionChanges m cs with
    | error e => rfl
    | ok next =>
      rw [happ] at hfail
      cases hfail
  · unfold subscriptionStoreAfter
    rw [herr]
    rfl

theorem apply_changes_atomic_witness :
    ((⟨"g1", "s1", "n1", ["cat-a"]⟩ : EventSubscriptionState).key
        ≠ (⟨"g2", "s2", "n2", ["cat-b"]⟩ : EventSubscriptionState).key)
    ∧ ((∀ (m : SubscriptionStore) (cs : List EventSubscriptionStateChange),
          (applySubscriptionChanges m cs).isOk = false →
          listSubscriptions (subscriptionStoreAfter m cs) = listSubscriptions m)
      ∧ applySubscriptionChange []
          ⟨.add, ⟨"g1", "s1", "n1", ["cat-a"]⟩⟩
          = .ok [((⟨"g1", "s1", "n1", ["cat-a"]⟩ : EventSubscriptionState).key,
              ⟨"g1", "s1", "n1", ["cat-a"]⟩)]
      ∧ applySubscriptionChanges []
          [⟨.add, ⟨"g1", "s1", "n1", ["cat-a"]⟩⟩,
           ⟨.remove, ⟨"g2", "s2", "n2", ["cat-b"]⟩⟩]
          = .error .conflictingChange
      ∧ listSubscriptions
          (subscriptionStoreAfter []
            [⟨.add, ⟨"g1", "s1", "n1", ["cat-a"]⟩⟩,
             ⟨.remove, ⟨"g2", "s2", "n2", ["cat-b"]⟩⟩]) = []) :=
  ⟨by decide, apply_changes_atomic _ _ (by decide)⟩

/-- A row of the subscribers table: id, group, last_seen, as read back by
PostgresEventSubscriberStore.list into EventSubscriberState. -/
structure EventSubscriberState where
  id : String
  group : String
  last_seen : Int
deriving DecidableEq, Repr

/-- PostgresEventSubscriberStore.list: builds a Search whose only filter is
the group equality when a subscriber group is given.  The
max_time_since_last_seen filter is commented out in the source, so the
result never depends on the max-age argument or on the clock. -/
def subscriberList (table : List EventSubscriberState) (subscriber_group : Option String)
    (max_time_since_last_seen : Option Int) : List EventSubscriberState :=
  match subscriber_group with
  | some g => table.filter (fun r => r.group == g)
  | none => table

/-- C6: list ignores max_time_since_last_seen: the result is independent of
the max-age argument, and concretely a subscriber last seen at time 0 is
still returned under a max age of 10 when the clock reads 1000, although
its age 1000 exceeds 10. -/
theorem subscriberList_ignores_max_age :
    (∀ (table : List EventSubscriberState) (g : Option String) (a a' : Option Int),
        subscriberList table g a = subscriberList table g a')
    ∧ subscriberList [⟨"sub-1", "grp", 0⟩] none (some 10) = [⟨"sub-1", "grp", 0⟩]
    ∧ ((1000 : Int) - 0 > 10) := by
  refine ⟨?_, rfl, by decide⟩
  intro table g a a'
  rfl

/-- PostgresEventSubscriberStore.heartbeat exactly as written in the
source: raise NotImplementedError, touching no table row. -/
def subscriberHeartbeat (table : List EventSubscriberState)
    (subscriber_id subscriber_group : String) (now : Int) :
    Except StoreError (List EventSubscriberState) :=
  .error .notImplemented

/-- insert_query of the subscribers store: INSERT (id, group, last_seen)
... ON CONFLICT (id, group) DO UPDATE SET last_seen, the upsert that add
performs with last_seen = clock.now() and that heartbeat was specified to
perform as well. -/
def upsertSubscriber (table : List EventSubscriberState) (s : EventSubscriberState) :
    List EventSubscriberState :=
  if table.any (fun r => r.id == s.id && r.group == s.group) then
    table.map (fun r =>
      if r.id == s.id && r.group == s.group then { r with last_seen := s.last_seen } else r)
  else
    table ++ [s]

/-- C7: heartbeat never upserts: the source raises NotImplementedError on
every input, so no record with last_seen = now can result from a heartbeat
call, even though the adjacent insert_query implements exactly the
(id, group)-keyed upsert the claim describes (shown on both the fresh and
the conflicting case). -/
theorem subscriberHeartbeat_not_implemented :
    (∀ (table : List EventSubscriberState) (i g : String) (now : Int),
        subscriberHeartbeat table i g now = .error .notImplemented)
    ∧ upsertSubscriber [] ⟨"s", "g", 5⟩ = [⟨"s", "g", 5⟩]
    ∧ upsertSubscriber [⟨"s", "g", 1⟩, ⟨"other", "g", 1⟩] ⟨"s", "g", 5⟩
        = [⟨"s", "g", 5⟩, ⟨"other", "g", 1⟩] :=
  ⟨fun _ _ _ _ => rfl, rfl, by decide⟩

/-- Modelled from the spec: the in-memory lock manager is not under src/.
Its internal table holds one entry per lock name only while that lock is
held or waited on; a sequential acquire/release cycle needs only the set
of held names. -/
def tryLockAcquire (locks : List String) (name : String) : Option (List String) :=
  if locks.contains name then none else some (locks ++ [name])

/-- Modelled from the spec: releasing a holder with no waiters removes the
per-name entry from the table. -/
def releaseLock (locks : List String) (name : String) : List String :=
  locks.erase name

/-- The two acquisition operations of the lock manager interface. -/
inductive LockOp where
  | tryOp (name : String) : LockOp
  | waitOp (name : String) : LockOp
deriving DecidableEq, Repr

/-- Modelled from the spec: one scoped acquire/release cycle, as performed
by async-with on try_lock or wait_for_lock.  In a single sequential task
wait_for_lock acquires immediately when the name is free; a name already
held would block, leaving the table unchanged. -/
def lockCycle (locks : List String) : LockOp → List String
  | .tryOp n =>
    match tryLockAcquire locks n with
    | some held => releaseLock held n
    | none => locks
  | .waitOp n =>
    match tryLockAcquire locks n with
    | some held => releaseLock held n
    | none => locks

/-- The lock table after a sequence of sequential acquire/release cycles
starting from a fresh lock manager. -/
def lockCycles (ops : List LockOp) : List String :=
  ops.foldl lockCycle []

/-- C8: the lock manager keeps no per-name state once every holder has
released: any sequence of sequential try_lock or wait_for_lock cycles, in
particular 100 cycles on distinct names, leaves the internal table empty. -/
theorem lock_table_empty_after_cycles :
    (∀ ops : List LockOp, lockCycles ops = [])
    ∧ lockCycles ((List.range 100).map (fun i => LockOp.tryOp (toString i))) = [] := by
  have hstep : ∀ op : LockOp, lockCycle [] op = [] := by
    intro op
    cases op with
    | tryOp n => simp [lockCycle, tryLockAcquire, releaseLock, List.erase_cons]
    | waitOp n => simp [lockCycle, tryLockAcquire, releaseLock, List.erase_cons]
  have hall : ∀ ops : List LockOp, lockCycles ops = [] := by
    intro ops
    unfold lockCycles
    induction ops with
    | nil => rfl
    | cons op rest ih =>
      rw [List.foldl_cons, hstep op]
      exact ih
  exact ⟨hall, hall _⟩

/-- A projection value: id, name, state, version and source (the source
identifier kept opaque as a string). -/
structure Projection (S : Type) where
  id : String
  name : String
  state : S
  version : Nat
  source : String
deriving DecidableEq, Repr

/-- lift_projection from both projection storage adapters: the same
projection with the converter applied to its state. -/
def lift_projection {S T : Type} (p : Projection S) (converter : S → T) : Projection T :=
  { id := p.id, name := p.name, state := converter p.state,
    version := p.version, source := p.source }

/-- The transformer the in-memory converter registry produces for one
FilterClause: keep the projections the clause matches.  A clause is
embedded as the matching predicate its converter closes over. -/
def filterClauseTransformer {S : Type} (isMatch : Projection S → Bool)
    (projections : List (Projection S)) : List (Projection S) :=
  projections.filter isMatch

/-- compose_transformers: reduce over the transformer list with function
composition, starting from the identity transformer. -/
def composeTransformers {S : Type}
    (fs : List (List (Projection S) → List (Projection S))) :
    List (Projection S) → List (Projection S) :=
  fs.foldl (fun f g => fun ps => g (f ps)) (fun ps => ps)

/-- convert_query on a Lookup: one filter transformer per clause, composed
in clause order. -/
def convertLookup {S : Type} (filters : List (Projection S → Bool)) :
    List (Projection S) → List (Projection S) :=
  composeTransformers (filters.map filterClauseTransformer)

/-- InMemoryProjectionStorageAdapter.find_one: applies the converted query
to the stored projections, raises when more than one matches, returns
None when none does, and otherwise the first (single) match lifted
through the converter. -/
def inMemoryFindOne {S T : Type} (store : List (Projection S))
    (filters : List (Projection S → Bool)) (converter : S → T) :
    Except StoreError (Option (Projection T)) :=
  if 1 < (convertLookup filters store).length then .error .valueError
  else
    match convertLookup filters store with
    | [] => .ok none
    | p :: _ => .ok (some (lift_projection p converter))

/-- PostgresProjectionStorageAdapter.find_one over the rows the converted
lookup query fetches: raises when the rowcount exceeds one, returns None
when fetchone finds no row, otherwise the single row lifted through the
converter. -/
def postgresFindOne {S T : Type} (rows : List (Projection S)) (converter : S → T) :
    Except StoreError (Option (Projection T)) :=
  if 1 < rows.length then .error .valueError
  else
    match rows.head? with
    | none => .ok none
    | some p => .ok (some (lift_projection p converter))

theorem foldl_compose_apply {S : Type} :
    ∀ (fs : List (List (Projection S) → List (Projection S)))
      (f : List (Projection S) → List (Projection S)) (ps : List (Projection S)),
      (fs.foldl (fun f g => fun ps => g (f ps)) f) ps = composeTransformers fs (f ps) := by
  intro fs
  induction fs with
  | nil =>
    intro f ps
    rfl
  | cons g gs ih =>
    intro f ps
    calc ((g :: gs).foldl (fun f g => fun ps => g (f ps)) f) ps
        = (gs.foldl (fun f g => fun ps => g (f ps)) (fun ps => g (f ps))) ps := rfl
      _ = composeTransformers gs (g (f ps)) := ih _ ps
      _ = (gs.foldl (fun f g => fun ps => g (f ps)) (fun ps => g ps)) (f ps) :=
          (ih _ (f ps)).symm
      _ = composeTransformers (g :: gs) (f ps) := rfl

theorem convertLookup_eq_filter {S : Type} :
    ∀ (filters : List (Projection S → Bool)) (ps : List (Projection S)),
      convertLookup filters ps = ps.filter (fun p => filters.all (fun f => f p)) := by
  intro filters
  induction filters with
  | nil =>
    intro ps
    simp [convertLookup, composeTransformers]
  | cons f fs ih =>
    intro ps
    have h1 : convertLookup (f :: fs) ps = convertLookup fs (ps.filter f) := by
      unfold convertLookup composeTransformers
      rw [List.map_cons, List.foldl_cons]
      exact foldl_compose_apply (fs.map filterClauseTransformer) _ ps
    rw [h1, ih, List.filter_filter]
    apply List.filter_congr
    intro p hp
    simp only [List.all_cons]
    exact Bool.and_comm _ _

/-- C9: find_one of both projection storage adapters returns None when the
query matches no stored projection, the unique match with the converter
applied when exactly one matches, and raises when more than one matches:
each is the matching-count-guarded head of the match list. -/
theorem findOne_matches_cardinality {S T : Type} (store : List (Projection S))
    (filters : List (Projection S → Bool)) (rows : List (Projection S))
    (converter : S → T) :
    (inMemoryFindOne store filters converter =
      if 1 < (store.filter (fun p => filters.all (fun f => f p))).length then
        .error .valueError
      else
        .ok ((store.filter (fun p => filters.all (fun f => f p))).head?.map
          (fun p => lift_projection p converter)))
    ∧ (postgresFindOne rows converter =
      if 1 < rows.length then .error .valueError
      else .ok (rows.head?.map (fun p => lift_projection p converter))) := by
  constructor
  · unfold inMemoryFindOne
    rw [convertLookup_eq_filter]
    cases hm : store.filter (fun p => filters.all (fun f => f p)) with
    | nil => simp
    | cons p rest =>
      by_cases hlen : 1 < (p :: rest).length
      · simp [hlen]
      · simp [hlen]
  · unfold postgresFindOne
    cases hr : rows with
    | nil => simp
    | cons p rest =>
      by_cases hlen : 1 < (p :: rest).length
      · simp [hlen]
      · simp [hlen]

/-- The dict of stored projections of the in-memory adapter, embedded as a
map from projection id to stored projection; dictSet is dict item
assignment. -/
def dictSet {S : Type} (store : String → Option (Projection S)) (k : String)
    (v : Projection S) : String → Option (Projection S) :=
  fun q => if q = k then some v else store q

/-- InMemoryProjectionStorageAdapter.save: when a projection with the same
id is already stored, store a projection keeping the existing id, name and
source with the converted new state and the new version; otherwise store
the new projection lifted through the converter. -/
def inMemorySave {S T : Type} (store : String → Option (Projection S))
    (p : Projection T) (converter : T → S) : String → Option (Projection S) :=
  match store p.id with
  | some existing =>
    dictSet store p.id
      { id := existing.id, name := existing.name, state := converter p.state,
        version := p.version, source := existing.source }
  | none => dictSet store p.id (lift_projection p converter)

/-- C10: saving over an existing id replaces only the state (with the
converter applied) and the version; the stored name and source survive,
every other key is untouched, and the incoming projection's name and
source are ignored: any projection agreeing on id, state and version saves
identically. -/
theorem inMemorySave_keeps_name_and_source {S T : Type}
    (store : String → Option (Projection S)) (p : Projection T) (converter : T → S)
    (existing : Projection S) (h : store p.id = some existing) :
    (inMemorySave store p converter) p.id
      = some { id := existing.id, name := existing.name, state := converter p.state,
               version := p.version, source := existing.source }
    ∧ (∀ k, k ≠ p.id → (inMemorySave store p converter) k = store k)
    ∧ (∀ q : Projection T, q.id = p.id → q.state = p.state → q.version = p.version →
        inMemorySave store q converter = inMemorySave store p converter) := by
  refine ⟨?_, ?_, ?_⟩
  · unfold inMemorySave
    rw [h]
    simp [dictSet]
  · intro k hk
    unfold inMemorySave
    rw [h]
    simp [dictSet, hk]
  · intro q hid hstate hver
    unfold inMemorySave
    rw [hid, hstate, hver, h]

theorem inMemorySave_keeps_name_and_source_witness :
    ((fun k => if k = "p1" then
        some (⟨"p1", "stored-name", 7, 1, "stored-source"⟩ : Projection Nat)
      else none) "p1" = some (⟨"p1", "stored-name", 7, 1, "stored-source"⟩ : Projection Nat))
    ∧ ((inMemorySave
          (fun k => if k = "p1" then
            some (⟨"p1", "stored-name", 7, 1, "stored-source"⟩ : Projection Nat)
          else none)
          (⟨"p1", "new-name", 9, 2, "new-source"⟩ : Projection Nat) (fun s => s)) "p1"
        = some ⟨"p1", "stored-name", 9, 2, "stored-source"⟩
      ∧ (∀ k, k ≠ (⟨"p1", "new-name", 9, 2, "new-source"⟩ : Projection Nat).id →
          (inMemorySave
            (fun k => if k = "p1" then
              some (⟨"p1", "stored-name", 7, 1, "stored-source"⟩ : Projection Nat)
            else none)
            (⟨"p1", "new-name", 9, 2, "new-source"⟩ : Projection Nat) (fun s => s)) k
            = (fun k => if k = "p1" then
                some (⟨"p1", "stored-name", 7, 1, "stored-source"⟩ : Projection Nat)
              else none) k)
      ∧ (∀ q : Projection Nat,
          q.id = (⟨"p1", "new-name", 9, 2, "new-source"⟩ : Projection Nat).id →
          q.state = (⟨"p1", "new-name", 9, 2, "new-source"⟩ : Projection Nat).state →
          q.version = (⟨"p1", "new-name", 9, 2, "new-source"⟩ : Projection Nat).version →
          inMemorySave
            (fun k => if k = "p1" then
              some (⟨"p1", "stored-name", 7, 1, "stored-source"⟩ : Projection Nat)
            else none) q (fun s => s)
          = inMemorySave
              (fun k => if k = "p1" then
                some (⟨"p1", "stored-name", 7, 1, "stored-source"⟩ : Projection Nat)
              else none)
              (⟨"p1", "new-name", 9, 2, "new-source"⟩ : Projection Nat) (fun s => s))) :=
  ⟨rfl, inMemorySave_keeps_name_and_source
    (fun k => if k = "p1" then
      some (⟨"p1", "stored-name", 7, 1, "stored-source"⟩ : Projection Nat)
    else none)
    (⟨"p1", "new-name", 9, 2, "new-source"⟩ : Projection Nat)
    (fun s => s)
    (⟨"p1", "stored-name", 7, 1, "stored-source"⟩ : Projection Nat)
    rfl⟩

end EventStore
